import Mathlib

/-!
Verification of the Turing Machine solver (src/solve.py, src/verifiers.py).

The development is a shallow embedding of the Python program:

* Python ints are `Int`; a code (guess) is a `List Int` of length `NUM_DIGITS`.
* Functions that can raise return `Except String`.
* The z3 constraint systems built by `Game.guess_loop` and
  `Game.filter_selected_flags` are embedded semantically: an assignment to the
  round variables (the three symbolic guess digits and the per-verifier
  selection flags) is a concrete value of type `Assign`, a z3 constraint is a
  `Bool`-valued function of the assignment, and `z3`'s `check` is decided by
  enumerating the finite space that the asserted digit-range constraints
  confine every satisfying assignment to.  The bridging lemmas `check_iff_sat`
  and `selCheck_iff_sat` relate the enumeration to plain satisfiability.
-/

def NUM_DIGITS : Nat := 3

/-! ## Verifier base class (src/solve.py lines 27-75) -/

/-- The hidden state stored by `Verifier.__init__`. -/
structure VerifierState where
  position1 : Option Int
  value1 : Option Int
  position2 : Option Int
  value2 : Option Int
deriving DecidableEq

/-- `Verifier.__init__`: store the hidden state after checking that any
non-None position lies in `[0, NUM_DIGITS)`.  A failed check raises
(`ValueError`, the ConfigurationError of the spec). -/
def Verifier.init (position1 value1 position2 value2 : Option Int) :
    Except String VerifierState :=
  if position1.any (fun p => !decide (0 ≤ p ∧ p < (NUM_DIGITS : Int))) then
    Except.error "position1 must be in range 0 to NUM_DIGITS"
  else if position2.any (fun p => !decide (0 ≤ p ∧ p < (NUM_DIGITS : Int))) then
    Except.error "position2 must be in range 0 to NUM_DIGITS"
  else
    Except.ok ⟨position1, value1, position2, value2⟩

/-- The validation performed by the base-class `Verifier.__call__`: the guess
must have length `NUM_DIGITS` and every digit must satisfy `0 < d < 6`
(raising `ValueError`, the ValidationError of the spec, otherwise). -/
def Verifier.base_call (guess : List Int) : Except String Unit :=
  if guess.length ≠ NUM_DIGITS then
    Except.error "guess must be length NUM_DIGITS"
  else if (List.range NUM_DIGITS).any
      (fun d => !decide (0 < guess.getD d 0 ∧ guess.getD d 0 < 6)) then
    Except.error "guess digit must be in range 1 to 5"
  else
    Except.ok ()

/-! ## Verifier subclasses (src/solve.py lines 77-169)

Each subclass is embedded as a pair of functions: `call` (the ground-truth
`__call__`, validation included) and `get_possibilities`.  In the source
`get_possibilities` builds z3 expressions over a symbolic guess; here the
predicates are evaluated at the assignment's guess value, so the embedded
`get_possibilities` returns the list of predicate values at a given guess.
List indexing `guess[p]` is embedded as `guess.getD p.toNat 0`: the base-class
constructor guarantees `0 ≤ p < NUM_DIGITS` and validation guarantees the
length, so the default is never reached where the source runs. -/

/-- `IsEqualX.__call__`: `guess[position1] == value1`. -/
def IsEqualX.call (position1 value1 : Int) (guess : List Int) :
    Except String Bool := do
  Verifier.base_call guess
  pure (decide (guess.getD position1.toNat 0 = value1))

/-- `IsEqualX.get_possibilities`: `[x == value1 for x in guess]`. -/
def IsEqualX.get_possibilities (value1 : Int) (guess : List Int) : List Bool :=
  guess.map (fun x => decide (x = value1))

/-- `DuplicateDigits.__call__`: the number of occurrences of `value1` in the
guess equals `value2`. -/
def DuplicateDigits.call (value1 value2 : Int) (guess : List Int) :
    Except String Bool := do
  Verifier.base_call guess
  pure (decide ((guess.countP (fun x => decide (x = value1)) : Int) = value2))

/-- `DuplicateDigits.get_possibilities`: for each target in
`range(NUM_DIGITS+1)`, the pseudo-boolean constraint that `value1` occurs
exactly `target` times in the guess. -/
def DuplicateDigits.get_possibilities (value1 : Int) (guess : List Int) :
    List Bool :=
  (List.range (NUM_DIGITS + 1)).map
    (fun target => decide (guess.countP (fun x => decide (x = value1)) = target))

/-- `IsLessThanX.__call__`: `guess[position1] < value1`. -/
def IsLessThanX.call (position1 value1 : Int) (guess : List Int) :
    Except String Bool := do
  Verifier.base_call guess
  pure (decide (guess.getD position1.toNat 0 < value1))

/-- `IsLessThanX.get_possibilities`: `[x < value1 for x in guess]`. -/
def IsLessThanX.get_possibilities (value1 : Int) (guess : List Int) :
    List Bool :=
  guess.map (fun x => decide (x < value1))

/-- `IsEvenOdd.__call__`: `guess[position1] % 2 == (0 if value1 else 1)`.
Python truthiness of the stored `value1` is embedded as `value1 ≠ 0`. -/
def IsEvenOdd.call (position1 value1 : Int) (guess : List Int) :
    Except String Bool := do
  Verifier.base_call guess
  pure (decide (guess.getD position1.toNat 0 % 2 = if value1 ≠ 0 then 0 else 1))

/-- `IsEvenOdd.get_possibilities`: the same parity predicate at each digit. -/
def IsEvenOdd.get_possibilities (value1 : Int) (guess : List Int) : List Bool :=
  guess.map (fun x => decide (x % 2 = if value1 ≠ 0 then 0 else 1))

/-- `IsLessThan.__call__`: `guess[position1] < guess[position2]`. -/
def IsLessThan.call (position1 position2 : Int) (guess : List Int) :
    Except String Bool := do
  Verifier.base_call guess
  pure (decide (guess.getD position1.toNat 0 < guess.getD position2.toNat 0))

/-- `IsLessThan.get_possibilities`:
`for p1, p2 in zip(range(NUM_DIGITS), range(NUM_DIGITS)): if p1 != p2:
result.append(guess[p1] < guess[p2])`.  Note the `zip` of a range with
itself: the pairs produced are exactly the diagonal `(i, i)`. -/
def IsLessThan.get_possibilities (guess : List Int) : List Bool :=
  (((List.range NUM_DIGITS).zip (List.range NUM_DIGITS)).filter
      (fun p => p.1 != p.2)).map
    (fun p => decide (guess.getD p.1 0 < guess.getD p.2 0))

/-- `IsMin.__call__`: `guess[position1]` is strictly less than every other
digit (a fold of `&=` over `digit != position1`). -/
def IsMin.call (position1 : Int) (guess : List Int) : Except String Bool := do
  Verifier.base_call guess
  pure (((List.range NUM_DIGITS).filter (fun d => Int.ofNat d != position1)).all
    (fun d => decide (guess.getD position1.toNat 0 < guess.getD d 0)))

/-- `IsMin.get_possibilities`: for each target position, the conjunction that
the target digit is strictly less than every other digit. -/
def IsMin.get_possibilities (guess : List Int) : List Bool :=
  (List.range NUM_DIGITS).map (fun target =>
    ((List.range NUM_DIGITS).filter (fun d => d != target)).all
      (fun d => decide (guess.getD target 0 < guess.getD d 0)))

/-- The closed family of verifier kinds, each constructor carrying the hidden
parameters its Python subclass reads. -/
inductive Verifier where
  | isEqualX (position1 value1 : Int)
  | duplicateDigits (value1 value2 : Int)
  | isLessThanX (position1 value1 : Int)
  | isEvenOdd (position1 value1 : Int)
  | isLessThan (position1 position2 : Int)
  | isMin (position1 : Int)
deriving DecidableEq

/-- Dispatch of the ground-truth evaluation `__call__` on the kind. -/
def Verifier.call : Verifier → List Int → Except String Bool
  | .isEqualX p1 v1, g => IsEqualX.call p1 v1 g
  | .duplicateDigits v1 v2, g => DuplicateDigits.call v1 v2 g
  | .isLessThanX p1 v1, g => IsLessThanX.call p1 v1 g
  | .isEvenOdd p1 v1, g => IsEvenOdd.call p1 v1 g
  | .isLessThan p1 p2, g => IsLessThan.call p1 p2 g
  | .isMin p1, g => IsMin.call p1 g

/-- Dispatch of `get_possibilities` on the kind. -/
def Verifier.get_possibilities : Verifier → List Int → List Bool
  | .isEqualX _ v1, g => IsEqualX.get_possibilities v1 g
  | .duplicateDigits v1 _, g => DuplicateDigits.get_possibilities v1 g
  | .isLessThanX _ v1, g => IsLessThanX.get_possibilities v1 g
  | .isEvenOdd _ v1, g => IsEvenOdd.get_possibilities v1 g
  | .isLessThan _ _, g => IsLessThan.get_possibilities g
  | .isMin _, g => IsMin.get_possibilities g

/-- `get_n_possibilities` as the source computes it: the length of the
possibility list (called on the symbolic guess, which has `NUM_DIGITS`
digits; the length does not depend on the digit values). -/
def Verifier.nPoss (v : Verifier) : Nat :=
  (v.get_possibilities (List.replicate NUM_DIGITS 0)).length

/-! ## The round constraint system (src/solve.py lines 171-363)

`Game.guess_loop` creates `NUM_DIGITS` symbolic integers (the guess digits)
and, per verifier, one boolean selection flag per possibility.  An `Assign`
gives a value to all of these.  z3 constraints become `Bool`-valued functions
of the assignment; copying a solver's assertion list into a fresh solver and
adding more assertions becomes conjunction.  A history entry pairs a
previously submitted code with the booleans each verifier returned for it
(`self.results`, in verifier order). -/

abbrev HistEntry := List Int × List Bool

/-- A value for every z3 variable of one round: the guess digits (in order)
and one row of selection-flag values per verifier (in verifier order, one
entry per possibility). -/
structure Assign where
  guess : List Int
  sel : List (List Bool)
deriving DecidableEq

/-- The selection rows have the declared shape: one row per verifier, of that
verifier's possibility count.  This expresses which boolean variables exist
in the round's solver. -/
def selShaped (vs : List Verifier) (sel : List (List Bool)) : Bool :=
  sel.length == vs.length &&
  (sel.zip vs).all (fun p => p.1.length == p.2.nPoss)

/-- The assignment names exactly the round's variables: `NUM_DIGITS` digits
and correctly shaped selection rows. -/
def Assign.wellShaped (vs : List Verifier) (a : Assign) : Bool :=
  a.guess.length == NUM_DIGITS && selShaped vs a.sel

/-- `s.add(digit >= 1, digit <= 5)` for each symbolic digit. -/
def digitRange (a : Assign) : Bool :=
  a.guess.all (fun d => decide (1 ≤ d) && decide (d ≤ 5))

/-- `z3.PbEq([(sel, 1) for sel in flags], 1)`: exactly one flag is true. -/
def pbEqOne (flags : List Bool) : Bool := flags.countP id == 1

/-- Per verifier: the exactly-one constraint on its selection flags, and
`z3.Implies(sel, opt)` for each flag and the matching possibility evaluated
at the symbolic guess. -/
def selectionConstraints (vs : List Verifier) (a : Assign) : Bool :=
  (vs.zip a.sel).all (fun p =>
    pbEqOne p.2 &&
    (p.2.zip (p.1.get_possibilities a.guess)).all (fun q => !q.1 || q.2))

/-- The constraints asserted by `guess_loop` before combination filtering. -/
def baseSystem (vs : List Verifier) (a : Assign) : Bool :=
  a.wellShaped vs && digitRange a && selectionConstraints vs a

/-- The value of selection flag `j` of verifier `i`. -/
def selAt (sel : List (List Bool)) (i j : Nat) : Bool :=
  (sel.getD i []).getD j false

/-- A combination picks one selection-flag index per verifier;
`generate_selection_flag_combinations` enumerates the cartesian product in
`itertools.product` order (first verifier outermost). -/
def flagCombinations : List Nat → List (List Nat)
  | [] => [[]]
  | n :: ns => (List.range n).flatMap (fun i => (flagCombinations ns).map (i :: ·))

/-- `z3.And(*[combination])`: every flag picked by the combination is true. -/
def combHolds (c : List Nat) (a : Assign) : Bool :=
  (a.sel.zip c).all (fun p => p.1.getD p.2 false)

/-! ## The finite search space standing in for z3's check

Every constraint system the program hands to z3 asserts the digit-range
constraints and mentions only the round's variables, so it is satisfiable
over the integers iff it is satisfiable over the finite space of well-shaped
assignments with digits in 1..5.  `check` (and `selCheck` for the
eliminator's purely boolean systems) decides this by enumeration; the lemmas
below relate the enumeration to plain satisfiability. -/

/-- All lists of the given length over the given domain. -/
def allLists (dom : List α) : Nat → List (List α)
  | 0 => [[]]
  | n + 1 => dom.flatMap (fun x => (allLists dom n).map (x :: ·))

/-- The digit values permitted by the range constraints. -/
def digitDomain : List Int := [1, 2, 3, 4, 5]

/-- All selection-row stacks of the given shape. -/
def allSels : List Nat → List (List (List Bool))
  | [] => [[]]
  | n :: ns => (allLists [true, false] n).flatMap
      (fun row => (allSels ns).map (row :: ·))

/-- All well-shaped assignments with in-range digits. -/
def allAssigns (vs : List Verifier) : List Assign :=
  (allLists digitDomain NUM_DIGITS).flatMap (fun g =>
    (allSels (vs.map Verifier.nPoss)).map (fun s => ⟨g, s⟩))

/-- `s.check()` for a round system (satisfiable iff some enumerated
assignment satisfies it). -/
def check (vs : List Verifier) (f : Assign → Bool) : Bool :=
  (allAssigns vs).any f

/-- `s.check()` for an eliminator system, which constrains only the
selection flags. -/
def selCheck (vs : List Verifier) (f : List (List Bool) → Bool) : Bool :=
  (allSels (vs.map Verifier.nPoss)).any f

/-! ## Combination filtering (src/solve.py lines 296-324) -/

/-- One iteration of the combination-filtering loop.  `acc` holds the
combinations already forbidden: the loop adds their negations to `s` as it
goes, so the copied assertion list tested here includes them.  The first
check copies the assertions and pins the combination's flags; on success the
first model returned decides `first_solution`, and a second check adds
`z3.Or(guess[d] != first_solution[d])` and asks for another model. -/
def forbidStep (assigns : List Assign) (vs : List Verifier)
    (acc : List (List Nat)) (c : List Nat) : List (List Nat) :=
  match assigns.find? (fun a =>
      baseSystem vs a && acc.all (fun c2 => !combHolds c2 a) && combHolds c a) with
  | none => acc ++ [c]
  | some a =>
    if assigns.any (fun b =>
        baseSystem vs b && acc.all (fun c2 => !combHolds c2 b) && combHolds c b &&
        (List.range NUM_DIGITS).any (fun d => !(b.guess.getD d 0 == a.guess.getD d 0))) then
      acc ++ [c]
    else acc

/-- The combinations whose negations `guess_loop` has asserted into `s` by
the end of its combination-filtering loop, in loop order. -/
def forbiddenCombos (vs : List Verifier) : List (List Nat) :=
  (flagCombinations (vs.map Verifier.nPoss)).foldl
    (forbidStep (allAssigns vs) vs) []

/-! ## The Hypothesis Eliminator (src/solve.py lines 211-267)

`filter_selected_flags` builds a fresh solver over the same selection flags:
per verifier the exactly-one constraint, and per history entry fresh
`old_guess` integers pinned by equality to the historical code, with the
implication below per verifier.  Because the `old_guess` variables are fixed
by those equalities, the possibility predicates are evaluated at the
historical code directly; the only free variables are the selection flags. -/

/-- `s.add(z3.Implies(z3.Or(*actual_opts), result))` for one verifier and one
history entry: `actual_opts` conjoins each selection flag with the matching
possibility evaluated at the old guess. -/
def historyImplication (v : Verifier) (row : List Bool) (code : List Int)
    (result : Bool) : Bool :=
  !((row.zip (v.get_possibilities code)).any (fun q => q.1 && q.2)) || result

/-- The baseline assertion set of `filter_selected_flags`. -/
def eliminatorBaseline (vs : List Verifier) (hist : List HistEntry)
    (sel : List (List Bool)) : Bool :=
  selShaped vs sel &&
  (vs.zip sel).all (fun p => pbEqOne p.2) &&
  hist.all (fun h =>
    ((vs.zip sel).zip h.2).all (fun q =>
      historyImplication q.1.1 q.1.2 h.1 q.2))

/-- The possibility count of verifier `i`. -/
def possCountAt (vs : List Verifier) (i : Nat) : Nat :=
  (vs.map Verifier.nPoss).getD i 0

/-- `Game.filter_selected_flags`: raise if the baseline is unsatisfiable;
otherwise, for every verifier in order and every selection flag in order,
copy the baseline assertions, assert the flag, and report the pair as
impossible when the copy is unsatisfiable. -/
def filter_selected_flags (vs : List Verifier) (hist : List HistEntry) :
    Except String (List (Nat × Nat)) :=
  if !selCheck vs (eliminatorBaseline vs hist) then
    Except.error "No solution found - are multiple guesses valid?"
  else
    Except.ok ((List.range vs.length).flatMap (fun i =>
      (List.range (possCountAt vs i)).filterMap (fun j =>
        if !selCheck vs (fun sel =>
            eliminatorBaseline vs hist sel && selAt sel i j) then
          some (i, j)
        else none)))

/-! ## The Guess Selector (src/solve.py lines 269-363) -/

/-- The data determined by one `guess_loop` round (beyond the model-dependent
concrete guess): the eliminations reported by the Hypothesis Eliminator this
round, the per-verifier interpretation-space counts, whether the
repeat-avoidance constraints were kept, and the returned solved flag. -/
structure RoundData where
  eliminated : List (Nat × Nat)
  counts : List Int
  noRepeat : Bool
  solved : Bool
deriving DecidableEq

deriving instance DecidableEq for Except

/-- `s.add(z3.Not(impossible_selection))` for each reported pair. -/
def elimConstraint (elim : List (Nat × Nat)) (a : Assign) : Bool :=
  elim.all (fun p => !selAt a.sel p.1 p.2)

/-- `s2.add(z3.Not(z3.And(*[old == new for old, new in zip(old_guess, guess)])))`
per historical code. -/
def histNeq (hist : List HistEntry) (a : Assign) : Bool :=
  hist.all (fun h => !((h.1.zip a.guess).all (fun q => q.1 == q.2)))

/-- The solver state `s` after combination filtering and the eliminations of
this round: base constraints, negated forbidden combinations, negated
impossible selection flags. -/
def roundSystemA (vs : List Verifier) (forbidden : List (List Nat))
    (elim : List (Nat × Nat)) (a : Assign) : Bool :=
  baseSystem vs a && forbidden.all (fun c => !combHolds c a) &&
  elimConstraint elim a

/-- The solver state `s2`: `roundSystemA` plus the repeat-avoidance
constraints. -/
def roundSystemB (vs : List Verifier) (forbidden : List (List Nat))
    (elim : List (Nat × Nat)) (hist : List HistEntry) (a : Assign) : Bool :=
  roundSystemA vs forbidden elim a && histNeq hist a

/-- The interpretation-space counts after this round's decrements: one count
per verifier, starting from its possibility count, minus one per reported
elimination (`selection_possibilities[verifier] -= 1`). -/
def roundCounts (vs : List Verifier) (eliminated : List (Nat × Nat)) :
    List Int :=
  eliminated.foldl (fun cs p => cs.set p.1 (cs.getD p.1 0 - 1))
    (vs.map (fun v => (v.nPoss : Int)))

/-- The tail of `Game.guess_loop` once the eliminations of the round are
known.  Mirrors, in order: the count decrements (`selection_possibilities[v]
-= 1` per reported pair); the attempt to avoid repeating old guesses (only
when history is non-empty), dropped when unsatisfiable; the final check,
raising when unsatisfiable; and the solved flag (all interpretation-space
counts equal 1). -/
def round_finish (vs : List Verifier) (hist : List HistEntry)
    (forbidden : List (List Nat)) (eliminated : List (Nat × Nat)) :
    Except String RoundData :=
  let counts := roundCounts vs eliminated
  let noRepeat := decide (hist.length > 0) &&
      check vs (roundSystemB vs forbidden eliminated hist)
  let finalSat := if noRepeat then
                    check vs (roundSystemB vs forbidden eliminated hist)
                  else
                    check vs (roundSystemA vs forbidden eliminated)
  if !finalSat then
    Except.error "No solution found"
  else
    Except.ok ⟨eliminated, counts, noRepeat, counts.all (fun c => c == 1)⟩

/-- `Game.guess_loop` after the combination-filtering loop, with the
already-computed forbidden combinations passed in: invoke the eliminator
(only when history is non-empty, propagating its exception), then finish the
round. -/
def guess_loop_core (vs : List Verifier) (hist : List HistEntry)
    (forbidden : List (List Nat)) : Except String RoundData :=
  match (if hist.length > 0 then filter_selected_flags vs hist
         else Except.ok []) with
  | Except.error e => Except.error e
  | Except.ok eliminated => round_finish vs hist forbidden eliminated

/-- `Game.guess_loop`: combination filtering followed by the rest of the
round. -/
def guess_loop (vs : List Verifier) (hist : List HistEntry) :
    Except String RoundData :=
  guess_loop_core vs hist (forbiddenCombos vs)

/-- The constraint system from which the round's concrete guess is extracted
(the final `s.model()`): `s2` when the repeat-avoidance constraints were
kept, the unextended `s` otherwise. -/
def RoundData.finalSystem (vs : List Verifier) (hist : List HistEntry)
    (rd : RoundData) (a : Assign) : Bool :=
  if rd.noRepeat then roundSystemB vs (forbiddenCombos vs) rd.eliminated hist a
  else roundSystemA vs (forbiddenCombos vs) rd.eliminated a

/-- The acc-free combination test: forbidden when unsatisfiable with the base
system, or when satisfiable without pinning a unique code. -/
def combSummary (assigns : List Assign) (vs : List Verifier) (c : List Nat) :
    Bool :=
  match assigns.find? (fun a => baseSystem vs a && combHolds c a) with
  | none => true
  | some a => assigns.any (fun b => baseSystem vs b && combHolds c b &&
      (List.range NUM_DIGITS).any
        (fun d => !(b.guess.getD d 0 == a.guess.getD d 0)))

/-! ## Claims about the verifier model -/

/-- Claim C1: for `IsLessThan` with `NUM_DIGITS = 3` the claim expects
`get_possibilities` to return one predicate per ordered pair of distinct
positions, that is 6 predicates.  The source zips `range(NUM_DIGITS)` with
itself, producing only the diagonal pairs, all of which are discarded by the
`p1 != p2` guard: the returned list is empty for every code. -/
theorem claim_C1 (guess : List Int) :
    IsLessThan.get_possibilities guess = [] ∧
    (IsLessThan.get_possibilities guess).length ≠ NUM_DIGITS * (NUM_DIGITS - 1) := by
  refine ⟨rfl, ?_⟩
  intro hlen
  rw [show IsLessThan.get_possibilities guess = [] from rfl] at hlen
  simp [NUM_DIGITS] at hlen

/-- Claim C3 (failing input): for the `IsLessThan` verifier with hidden
positions `(0, 1)` and the valid code `(1, 2, 3)`, the ground truth
`__call__` returns `True`, yet `get_possibilities` returns the empty list, so
no predicate at any index can agree with the ground truth. -/
theorem claim_C3 :
    IsLessThan.call 0 1 [1, 2, 3] = Except.ok true ∧
    IsLessThan.get_possibilities [1, 2, 3] = [] :=
  ⟨rfl, rfl⟩

/-- Claim C2 (counterexample): `IsEqualX` with hidden parameters
`position1 = 0`, `value1 = 2` is accepted by the constructor, the code
`(2, 2, 2)` is valid, and all three generated predicates evaluate to true on
it — not exactly one. -/
theorem claim_C2_cex :
    Verifier.init (some 0) (some 2) none none =
      Except.ok ⟨some 0, some 2, none, none⟩ ∧
    Verifier.base_call [2, 2, 2] = Except.ok () ∧
    ((Verifier.isEqualX 0 2).get_possibilities [2, 2, 2]).countP id = 3 ∧
    ((Verifier.isEqualX 0 2).get_possibilities [2, 2, 2]).countP id ≠ 1 :=
  ⟨rfl, rfl, rfl, by decide⟩

/-- Counting the occurrences of `k` in `range n`. -/
theorem countP_range_eq (n k : Nat) :
    (List.range n).countP (fun t => decide (k = t)) = if k < n then 1 else 0 := by
  induction n with
  | zero => simp
  | succ n ih =>
    rw [List.range_succ, List.countP_append, ih, List.countP_cons]
    by_cases h : k < n
    · have : k ≠ n := Nat.ne_of_lt h
      simp [h, Nat.lt_succ_of_lt h, this]
    · by_cases he : k = n
      · subst he
        simp [h, Nat.lt_succ_self]
      · have : ¬ k < n + 1 := by omega
        simp [h, he, this]

/-- Claim C2 (amended): of the six verifier kinds only `DuplicateDigits`
satisfies the exactly-one-true invariant; for it, for every hidden
parameterization and every valid code, exactly one generated predicate is
true (the occurrence count of `value1` is a single number in `0..NUM_DIGITS`). -/
theorem claim_C2 (value1 : Int) (guess : List Int)
    (hlen : guess.length = NUM_DIGITS)
    (hrange : ∀ d ∈ guess, 1 ≤ d ∧ d ≤ 5) :
    (DuplicateDigits.get_possibilities value1 guess).countP id = 1 := by
  unfold DuplicateDigits.get_possibilities
  rw [List.countP_map]
  have hle : guess.countP (fun x => decide (x = value1)) ≤ NUM_DIGITS := by
    calc guess.countP (fun x => decide (x = value1)) ≤ guess.length :=
          List.countP_le_length _
      _ = NUM_DIGITS := hlen
  have h := countP_range_eq (NUM_DIGITS + 1) (guess.countP (fun x => decide (x = value1)))
  have hlt : guess.countP (fun x => decide (x = value1)) < NUM_DIGITS + 1 :=
    Nat.lt_succ_of_le hle
  simpa [hlt, Function.comp] using h

/-- Witness for claim C2 at a concrete valid code. -/
theorem claim_C2_w :
    (DuplicateDigits.get_possibilities 4 [1, 2, 3]).countP id = 1 :=
  claim_C2 4 [1, 2, 3] (by decide) (by decide)

/-- The constructor's range test fires exactly on a present, out-of-range
position. -/
theorem posCheck_iff (p : Option Int) :
    (p.any (fun x => !decide (0 ≤ x ∧ x < (NUM_DIGITS : Int)))) = true ↔
      ∃ x, p = some x ∧ ¬(0 ≤ x ∧ x < (NUM_DIGITS : Int)) := by
  cases p <;> simp <;> omega

/-- Claim C8: the base-class constructor fails exactly when a non-None
position argument lies outside `[0, NUM_DIGITS)`; construction with in-range
(or absent) positions succeeds. -/
theorem claim_C8 (p1 v1 p2 v2 : Option Int) :
    (∃ msg, Verifier.init p1 v1 p2 v2 = Except.error msg) ↔
      ((∃ x, p1 = some x ∧ ¬(0 ≤ x ∧ x < (NUM_DIGITS : Int))) ∨
       (∃ x, p2 = some x ∧ ¬(0 ≤ x ∧ x < (NUM_DIGITS : Int)))) := by
  rw [← posCheck_iff p1, ← posCheck_iff p2]
  unfold Verifier.init
  split_ifs with h1 h2 <;> simp_all

/-- Claim C10: `None` positions are accepted without any range check: the
constructor stores the hidden state unchanged. -/
theorem claim_C10 (v1 v2 : Option Int) :
    Verifier.init none v1 none v2 = Except.ok ⟨none, v1, none, v2⟩ := rfl

theorem mem_allLists {α : Type} {dom : List α} :
    ∀ {n : Nat} {l : List α}, l ∈ allLists dom n ↔ l.length = n ∧ ∀ x ∈ l, x ∈ dom := by
  intro n
  induction n with
  | zero => intro l; cases l <;> simp [allLists]
  | succ n ih =>
    intro l
    cases l with
    | nil => simp [allLists]
    | cons x t =>
      simp only [allLists, List.mem_flatMap, List.mem_map]
      constructor
      · rintro ⟨y, hy, l', hl', heq⟩
        injection heq with h1 h2
        subst h1; subst h2
        obtain ⟨hlen, hdom⟩ := ih.mp hl'
        refine ⟨by simp [hlen], ?_⟩
        intro z hz
        rcases List.mem_cons.mp hz with rfl | hz
        · exact hy
        · exact hdom z hz
      · rintro ⟨hlen, hdom⟩
        refine ⟨x, hdom x (List.mem_cons_self x t), t, ih.mpr ⟨by simpa using hlen, ?_⟩, rfl⟩
        intro z hz
        exact hdom z (List.mem_cons_of_mem x hz)

theorem mem_digitDomain (d : Int) : d ∈ digitDomain ↔ 1 ≤ d ∧ d ≤ 5 := by
  simp [digitDomain]
  omega

theorem mem_allSels :
    ∀ (ns : List Nat) (s : List (List Bool)),
      s ∈ allSels ns ↔ s.length = ns.length ∧
        ∀ p ∈ s.zip ns, (p : List Bool × Nat).1.length = p.2 := by
  intro ns
  induction ns with
  | nil => intro s; cases s <;> simp [allSels]
  | cons n ns ih =>
    intro s
    cases s with
    | nil => simp [allSels]
    | cons row t =>
      simp only [allSels, List.mem_flatMap, List.mem_map]
      constructor
      · rintro ⟨r, hr, t', ht', heq⟩
        rw [← heq]
        obtain ⟨hlen, hzip⟩ := (ih t').mp ht'
        have hrow : r.length = n := ((mem_allLists).mp hr).1
        refine ⟨by simp [hlen], ?_⟩
        rw [List.zip_cons_cons]
        intro p hp
        rcases List.mem_cons.mp hp with rfl | hp
        · exact hrow
        · exact hzip p hp
      · rintro ⟨hlen, hzip⟩
        rw [List.zip_cons_cons] at hzip
        refine ⟨row, mem_allLists.mpr ⟨hzip (row, n) (List.mem_cons_self _ _), ?_⟩,
          t, (ih t).mpr ⟨by simpa using hlen, ?_⟩, rfl⟩
        · intro b _
          cases b <;> simp
        · intro p hp
          exact hzip p (List.mem_cons_of_mem _ hp)

theorem selShaped_iff_mem (vs : List Verifier) (sel : List (List Bool)) :
    selShaped vs sel = true ↔ sel ∈ allSels (vs.map Verifier.nPoss) := by
  rw [mem_allSels]
  unfold selShaped
  rw [Bool.and_eq_true, List.all_eq_true, beq_iff_eq]
  constructor
  · rintro ⟨hlen, hzip⟩
    refine ⟨by simpa using hlen, ?_⟩
    intro p hp
    rw [List.zip_map_right] at hp
    rcases List.mem_map.mp hp with ⟨q, hq, rfl⟩
    simpa using (hzip q hq)
  · rintro ⟨hlen, hzip⟩
    refine ⟨by simpa using hlen, ?_⟩
    intro p hp
    have : (p.1, p.2.nPoss) ∈ sel.zip (vs.map Verifier.nPoss) := by
      rw [List.zip_map_right]
      exact List.mem_map.mpr ⟨p, hp, rfl⟩
    simpa using (hzip _ this)

theorem mem_allAssigns (vs : List Verifier) (a : Assign) :
    a ∈ allAssigns vs ↔ a.wellShaped vs = true ∧ digitRange a = true := by
  unfold allAssigns Assign.wellShaped digitRange
  simp only [List.mem_flatMap, List.mem_map]
  constructor
  · rintro ⟨g, hg, s, hs, rfl⟩
    obtain ⟨hlen, hdom⟩ := mem_allLists.mp hg
    refine ⟨?_, ?_⟩
    · rw [Bool.and_eq_true, beq_iff_eq]
      exact ⟨hlen, (selShaped_iff_mem vs s).mpr hs⟩
    · rw [List.all_eq_true]
      intro d hd
      have := (mem_digitDomain d).mp (hdom d hd)
      simp [this.1, this.2]
  · rintro ⟨hshape, hrange⟩
    rw [Bool.and_eq_true, beq_iff_eq] at hshape
    refine ⟨a.guess, mem_allLists.mpr ⟨hshape.1, ?_⟩,
      a.sel, (selShaped_iff_mem vs a.sel).mp hshape.2, rfl⟩
    intro d hd
    rw [List.all_eq_true] at hrange
    have := hrange d hd
    rw [Bool.and_eq_true, decide_eq_true_eq, decide_eq_true_eq] at this
    exact (mem_digitDomain d).mpr this

/-- z3 completeness for round systems: a system that entails the variable
shape and the digit-range constraints is reported satisfiable by the
enumeration iff it has a satisfying assignment. -/
theorem check_iff_sat (vs : List Verifier) (f : Assign → Bool)
    (hf : ∀ a, f a = true → a.wellShaped vs = true ∧ digitRange a = true) :
    check vs f = true ↔ ∃ a, f a = true := by
  unfold check
  rw [List.any_eq_true]
  constructor
  · rintro ⟨a, _, hfa⟩
    exact ⟨a, hfa⟩
  · rintro ⟨a, hfa⟩
    exact ⟨a, (mem_allAssigns vs a).mpr (hf a hfa), hfa⟩

/-- z3 completeness for eliminator systems, which entail only the selection
shape. -/
theorem selCheck_iff_sat (vs : List Verifier) (f : List (List Bool) → Bool)
    (hf : ∀ sel, f sel = true → selShaped vs sel = true) :
    selCheck vs f = true ↔ ∃ sel, f sel = true := by
  unfold selCheck
  rw [List.any_eq_true]
  constructor
  · rintro ⟨sel, _, hfs⟩
    exact ⟨sel, hfs⟩
  · rintro ⟨sel, hfs⟩
    exact ⟨sel, (selShaped_iff_mem vs sel).mp (hf sel hfs), hfs⟩

/-! ## Claim C4: the Hypothesis Eliminator -/

theorem eliminatorBaseline_shape (vs : List Verifier) (hist : List HistEntry)
    (sel : List (List Bool)) (h : eliminatorBaseline vs hist sel = true) :
    selShaped vs sel = true := by
  unfold eliminatorBaseline at h
  rw [Bool.and_eq_true, Bool.and_eq_true] at h
  exact h.1.1

/-- Membership in the list returned by `filter_selected_flags`, phrased with
the enumerated check. -/
theorem mem_filter_selected_flags (vs : List Verifier) (hist : List HistEntry)
    (l : List (Nat × Nat)) (h : filter_selected_flags vs hist = Except.ok l)
    (i j : Nat) :
    (i, j) ∈ l ↔ i < vs.length ∧ j < possCountAt vs i ∧
      selCheck vs (fun sel => eliminatorBaseline vs hist sel && selAt sel i j)
        = false := by
  unfold filter_selected_flags at h
  by_cases hb : selCheck vs (eliminatorBaseline vs hist) = true
  · rw [if_neg (by simp [hb])] at h
    injection h with h
    rw [← h]
    simp only [List.mem_flatMap, List.mem_range, List.mem_filterMap]
    constructor
    · rintro ⟨i', hi', j', hj', hif⟩
      by_cases hc : selCheck vs
          (fun sel => eliminatorBaseline vs hist sel && selAt sel i' j') = true
      · rw [if_neg (by simp [hc])] at hif
        cases hif
      · rw [if_pos (by simp [Bool.eq_false_iff.mpr hc])] at hif
        injection hif with hif
        rw [Prod.mk.injEq] at hif
        obtain ⟨rfl, rfl⟩ := hif
        exact ⟨hi', hj', Bool.eq_false_iff.mpr hc⟩
    · rintro ⟨hi, hj, hc⟩
      exact ⟨i, hi, ⟨j, hj, by rw [if_pos (by simp [hc])]⟩⟩
  · rw [if_pos (by simp [Bool.eq_false_iff.mpr hb])] at h
    cases h

/-- Claim C4: with the full history, a pair (verifier `i`, selection flag
`j`) is reported as impossible by `filter_selected_flags` iff the baseline
system (exactly one selection per verifier, plus the per-history
implications) conjoined with that flag is unsatisfiable; every such pair is
in the returned list and no other pair is. -/
theorem claim_C4 (vs : List Verifier) (hist : List HistEntry)
    (l : List (Nat × Nat)) (h : filter_selected_flags vs hist = Except.ok l)
    (i j : Nat) :
    (i, j) ∈ l ↔ i < vs.length ∧ j < possCountAt vs i ∧
      ¬ ∃ sel, eliminatorBaseline vs hist sel = true ∧ selAt sel i j = true := by
  rw [mem_filter_selected_flags vs hist l h i j]
  have hshape : ∀ sel,
      (eliminatorBaseline vs hist sel && selAt sel i j) = true →
      selShaped vs sel = true := by
    intro sel hs
    rw [Bool.and_eq_true] at hs
    exact eliminatorBaseline_shape vs hist sel hs.1
  have hiff := selCheck_iff_sat vs
    (fun sel => eliminatorBaseline vs hist sel && selAt sel i j) hshape
  constructor
  · rintro ⟨h1, h2, h3⟩
    refine ⟨h1, h2, ?_⟩
    rintro ⟨sel, hbase, hsel⟩
    have : selCheck vs
        (fun sel => eliminatorBaseline vs hist sel && selAt sel i j) = true :=
      hiff.mpr ⟨sel, by rw [Bool.and_eq_true]; exact ⟨hbase, hsel⟩⟩
    rw [h3] at this
    cases this
  · rintro ⟨h1, h2, h3⟩
    refine ⟨h1, h2, ?_⟩
    by_cases hc : selCheck vs
        (fun sel => eliminatorBaseline vs hist sel && selAt sel i j) = true
    · obtain ⟨sel, hs⟩ := hiff.mp hc
      rw [Bool.and_eq_true] at hs
      exact absurd ⟨sel, hs.1, hs.2⟩ h3
    · exact Bool.eq_false_iff.mpr hc

/-! ## Claim C5: combination filtering

The loop in `guess_loop` adds the negation of each forbidden combination to
`s` while it is still iterating, so later combination tests run against a
solver that already contains those negations.  The lemmas below show this
does not change any test's outcome: an assignment satisfying the base system
and pinning the current combination automatically falsifies every other
combination (the exactly-one constraints force the selection rows to be the
indicator of the pinned combination), hence satisfies the accumulated
negations.  The filtering decision is therefore a pure predicate of the
combination, and independent of which first model z3 happens to return. -/

theorem zip_all_index {α β : Type} (p : α × β → Bool) (l1 : List α)
    (l2 : List β) (h : (l1.zip l2).all p = true) (k : Nat) (h1 : k < l1.length)
    (h2 : k < l2.length) (d1 : α) (d2 : β) :
    p (l1.getD k d1, l2.getD k d2) = true := by
  rw [List.all_eq_true] at h
  have hk : k < (l1.zip l2).length := by
    rw [List.length_zip]
    exact lt_min h1 h2
  have hval : (l1.zip l2)[k] = (l1.getD k d1, l2.getD k d2) := by
    rw [List.getElem_zip, List.getD_eq_getElem l1 d1 h1, List.getD_eq_getElem l2 d2 h2]
  rw [← hval]
  exact h _ (List.getElem_mem hk)

theorem zip_forall_index {α β : Type} (P : α × β → Prop) (l1 : List α)
    (l2 : List β) (h : ∀ q ∈ l1.zip l2, P q) (k : Nat) (h1 : k < l1.length)
    (h2 : k < l2.length) (d1 : α) (d2 : β) :
    P (l1.getD k d1, l2.getD k d2) := by
  have hk : k < (l1.zip l2).length := by
    rw [List.length_zip]
    exact lt_min h1 h2
  have hval : (l1.zip l2)[k] = (l1.getD k d1, l2.getD k d2) := by
    rw [List.getElem_zip, List.getD_eq_getElem l1 d1 h1, List.getD_eq_getElem l2 d2 h2]
  rw [← hval]
  exact h _ (List.getElem_mem hk)

theorem getD_true_pos (l : List Bool) (i : Nat) (h : l.getD i false = true) :
    0 < l.countP id := by
  have hi : i < l.length := by
    by_contra hge
    rw [List.getD_eq_default l false (Nat.le_of_not_lt hge)] at h
    cases h
  rw [List.countP_pos_iff]
  refine ⟨l.getD i false, ?_, by rw [h]; rfl⟩
  rw [List.getD_eq_getElem l false hi]
  exact List.getElem_mem hi

theorem two_true_le_countP :
    ∀ (l : List Bool) (p q : Nat), p ≠ q →
      l.getD p false = true → l.getD q false = true → 2 ≤ l.countP id := by
  intro l
  induction l with
  | nil =>
    intro p q _ hp _
    simp [List.getD] at hp
  | cons b t ih =>
    intro p q hpq hp hq
    cases p with
    | zero =>
      cases q with
      | zero => exact absurd rfl hpq
      | succ q =>
        have hb : b = true := by simpa using hp
        have hqt : t.getD q false = true := by simpa using hq
        have hpos := getD_true_pos t q hqt
        rw [List.countP_cons, hb]
        show 2 ≤ t.countP id + 1
        omega
    | succ p =>
      cases q with
      | zero =>
        have hb : b = true := by simpa using hq
        have hpt : t.getD p false = true := by simpa using hp
        have hpos := getD_true_pos t p hpt
        rw [List.countP_cons, hb]
        show 2 ≤ t.countP id + 1
        omega
      | succ q =>
        have hpt : t.getD p false = true := by simpa using hp
        have hqt : t.getD q false = true := by simpa using hq
        have := ih p q (fun he => hpq (by rw [he])) hpt hqt
        rw [List.countP_cons]
        omega

/-- A `PbEq(..., 1)` row with a true flag has every other flag false. -/
theorem pbEqOne_unique (row : List Bool) (h : pbEqOne row = true) (p q : Nat)
    (hpq : p ≠ q) (hp : row.getD p false = true) :
    row.getD q false = false := by
  by_cases hq : row.getD q false = true
  · have := two_true_le_countP row p q hpq hp hq
    unfold pbEqOne at h
    rw [beq_iff_eq] at h
    omega
  · exact Bool.eq_false_iff.mpr hq

theorem ne_lists_exists_getD {α : Type} (d : α) :
    ∀ (c c2 : List α), c.length = c2.length → c ≠ c2 →
      ∃ k, k < c.length ∧ c.getD k d ≠ c2.getD k d := by
  intro c
  induction c with
  | nil =>
    intro c2 hlen hne
    cases c2 with
    | nil => exact absurd rfl hne
    | cons y t2 => simp at hlen
  | cons x t ih =>
    intro c2 hlen hne
    cases c2 with
    | nil => simp at hlen
    | cons y t2 =>
      by_cases hxy : x = y
      · subst hxy
        have hne' : t ≠ t2 := fun he => hne (by rw [he])
        obtain ⟨k, hk, hkne⟩ := ih t2 (by simpa using hlen) hne'
        exact ⟨k + 1, by simpa using hk, by simpa using hkne⟩
      · exact ⟨0, by simp, by simpa using hxy⟩

theorem mem_flagCombinations :
    ∀ (ns : List Nat) (c : List Nat),
      c ∈ flagCombinations ns ↔ c.length = ns.length ∧
        ∀ q ∈ c.zip ns, (q : Nat × Nat).1 < q.2 := by
  intro ns
  induction ns with
  | nil =>
    intro c
    cases c <;> simp [flagCombinations]
  | cons n ns ih =>
    intro c
    cases c with
    | nil => simp [flagCombinations]
    | cons i t =>
      simp only [flagCombinations, List.mem_flatMap, List.mem_map, List.mem_range]
      constructor
      · rintro ⟨i', hi', t', ht', heq⟩
        rw [← heq]
        obtain ⟨hlen, hzip⟩ := (ih t').mp ht'
        refine ⟨by simp [hlen], ?_⟩
        rw [List.zip_cons_cons]
        intro q hq
        rcases List.mem_cons.mp hq with rfl | hq
        · exact hi'
        · exact hzip q hq
      · rintro ⟨hlen, hzip⟩
        rw [List.zip_cons_cons] at hzip
        exact ⟨i, hzip (i, n) (List.mem_cons_self _ _), t,
          (ih t).mpr ⟨by simpa using hlen,
            fun q hq => hzip q (List.mem_cons_of_mem _ hq)⟩, rfl⟩

theorem flagCombinations_nodup : ∀ (ns : List Nat), (flagCombinations ns).Nodup := by
  intro ns
  induction ns with
  | nil => simp [flagCombinations]
  | cons n ns ih =>
    unfold flagCombinations
    rw [List.nodup_flatMap]
    constructor
    · intro i _
      refine ih.map ?_
      intro a b h
      rw [List.cons.injEq] at h
      exact h.2
    · refine (List.nodup_range n).imp fun {i j} hij => ?_
      intro x hxi hxj
      rcases List.mem_map.mp hxi with ⟨ti, _, rfl⟩
      rcases List.mem_map.mp hxj with ⟨tj, _, heq⟩
      rw [List.cons.injEq] at heq
      exact hij heq.1.symm

theorem baseSystem_parts (vs : List Verifier) (a : Assign)
    (h : baseSystem vs a = true) :
    a.guess.length = NUM_DIGITS ∧ selShaped vs a.sel = true ∧
    digitRange a = true ∧ selectionConstraints vs a = true := by
  unfold baseSystem Assign.wellShaped at h
  rw [Bool.and_eq_true, Bool.and_eq_true] at h
  obtain ⟨⟨hw, hr⟩, hs⟩ := h
  rw [Bool.and_eq_true, beq_iff_eq] at hw
  exact ⟨hw.1, hw.2, hr, hs⟩

theorem selShaped_parts (vs : List Verifier) (sel : List (List Bool))
    (h : selShaped vs sel = true) :
    sel.length = vs.length ∧
    ∀ k, k < vs.length →
      (sel.getD k []).length = (vs.getD k (.isMin 0)).nPoss := by
  unfold selShaped at h
  rw [Bool.and_eq_true, beq_iff_eq] at h
  obtain ⟨hlen, hall⟩ := h
  refine ⟨hlen, fun k hk => ?_⟩
  have := zip_all_index _ sel vs hall k (by omega) hk [] (.isMin 0)
  simpa using this

theorem selection_pbEq (vs : List Verifier) (a : Assign)
    (h : selectionConstraints vs a = true) (k : Nat) (hk : k < vs.length)
    (hks : k < a.sel.length) :
    pbEqOne (a.sel.getD k []) = true := by
  unfold selectionConstraints at h
  have := zip_all_index _ vs a.sel h k hk hks (.isMin 0) []
  rw [Bool.and_eq_true] at this
  exact this.1

theorem combHolds_index (c : List Nat) (a : Assign) (h : combHolds c a = true)
    (k : Nat) (hk1 : k < a.sel.length) (hk2 : k < c.length) :
    (a.sel.getD k []).getD (c.getD k 0) false = true := by
  unfold combHolds at h
  exact zip_all_index _ a.sel c h k hk1 hk2 [] 0

/-- Under the base constraints, pinning one combination falsifies every
other one: the exactly-one rows cannot hold two distinct flags. -/
theorem combHolds_unique (vs : List Verifier) (a : Assign) (c c2 : List Nat)
    (hb : baseSystem vs a = true)
    (hlc : c.length = vs.length) (hlc2 : c2.length = vs.length)
    (hne : c2 ≠ c) (hholds : combHolds c a = true) :
    combHolds c2 a = false := by
  obtain ⟨hg, hsh, hr, hsc⟩ := baseSystem_parts vs a hb
  obtain ⟨hsl, hrow⟩ := selShaped_parts vs a.sel hsh
  obtain ⟨k, hk, hkne⟩ := ne_lists_exists_getD 0 c2 c (by omega) hne
  by_cases h2 : combHolds c2 a = true
  · have hkv : k < vs.length := by omega
    have hks : k < a.sel.length := by omega
    have ht1 := combHolds_index c a hholds k hks (by omega)
    have ht2 := combHolds_index c2 a h2 k hks (by omega)
    have hpb := selection_pbEq vs a hsc k hkv hks
    have hfalse := pbEqOne_unique (a.sel.getD k []) hpb
      (c2.getD k 0) (c.getD k 0) hkne ht2
    rw [ht1] at hfalse
    cases hfalse
  · exact Bool.eq_false_iff.mpr h2

/-- The accumulated negations do not change a combination test: any
assignment satisfying the base system and the current combination already
satisfies the negation of every other combination. -/
theorem acc_neg_irrelevant (vs : List Verifier) (c : List Nat)
    (acc : List (List Nat)) (hc : c.length = vs.length)
    (hacc : ∀ c2 ∈ acc, c2.length = vs.length ∧ c2 ≠ c) :
    ∀ a, (baseSystem vs a && acc.all (fun c2 => !combHolds c2 a) && combHolds c a)
        = (baseSystem vs a && combHolds c a) := by
  intro a
  cases hbb : baseSystem vs a with
  | false => simp
  | true =>
    cases hcb : combHolds c a with
    | false => simp
    | true =>
      have hall : acc.all (fun c2 => !combHolds c2 a) = true := by
        rw [List.all_eq_true]
        intro c2 h2
        rw [combHolds_unique vs a c c2 hbb hc (hacc c2 h2).1 (hacc c2 h2).2 hcb]
        rfl
      rw [hall]
      simp

theorem forbidStep_eq_if (vs : List Verifier) (acc : List (List Nat))
    (c : List Nat) (hc : c.length = vs.length)
    (hacc : ∀ c2 ∈ acc, c2.length = vs.length ∧ c2 ≠ c) :
    forbidStep (allAssigns vs) vs acc c =
      if combSummary (allAssigns vs) vs c then acc ++ [c] else acc := by
  have hf : (fun a => baseSystem vs a &&
        acc.all (fun c2 => !combHolds c2 a) && combHolds c a)
      = (fun a => baseSystem vs a && combHolds c a) :=
    funext (acc_neg_irrelevant vs c acc hc hacc)
  unfold forbidStep combSummary
  rw [hf]
  cases hfind : (allAssigns vs).find?
      (fun a => baseSystem vs a && combHolds c a) with
  | none => simp
  | some a =>
    have hany : (fun b => baseSystem vs b &&
          acc.all (fun c2 => !combHolds c2 b) && combHolds c b &&
          (List.range NUM_DIGITS).any
            (fun d => !(b.guess.getD d 0 == a.guess.getD d 0)))
        = (fun b => baseSystem vs b && combHolds c b &&
          (List.range NUM_DIGITS).any
            (fun d => !(b.guess.getD d 0 == a.guess.getD d 0))) := by
      funext b
      rw [acc_neg_irrelevant vs c acc hc hacc b]
    dsimp only
    rw [hany]

theorem foldl_forbidStep (vs : List Verifier) :
    ∀ (todo acc : List (List Nat)),
      (∀ c ∈ todo, c.length = vs.length) →
      (∀ c2 ∈ acc, c2.length = vs.length) →
      (∀ c ∈ todo, c ∉ acc) →
      todo.Nodup →
      todo.foldl (forbidStep (allAssigns vs) vs) acc =
        acc ++ todo.filter (combSummary (allAssigns vs) vs) := by
  intro todo
  induction todo with
  | nil =>
    intro acc _ _ _ _
    simp
  | cons c rest ih =>
    intro acc htodo hacc hdisj hnd
    rw [List.foldl_cons, List.filter_cons]
    have hc : c.length = vs.length := htodo c (List.mem_cons_self _ _)
    have hstep := forbidStep_eq_if vs acc c hc
      (fun c2 h2 => ⟨hacc c2 h2,
        fun he => hdisj c (List.mem_cons_self _ _) (he ▸ h2)⟩)
    rw [hstep]
    rw [List.nodup_cons] at hnd
    by_cases hsum : combSummary (allAssigns vs) vs c = true
    · rw [if_pos hsum, if_pos hsum]
      rw [ih (acc ++ [c])
        (fun c' h' => htodo c' (List.mem_cons_of_mem _ h'))
        (fun c2 h2 => by
          rcases List.mem_append.mp h2 with h2 | h2
          · exact hacc c2 h2
          · rw [List.mem_singleton] at h2
            rw [h2]
            exact hc)
        (fun c' h' => by
          intro hmem
          rcases List.mem_append.mp hmem with hmem | hmem
          · exact hdisj c' (List.mem_cons_of_mem _ h') hmem
          · rw [List.mem_singleton] at hmem
            exact hnd.1 (hmem ▸ h'))
        hnd.2]
      rw [List.append_assoc]
      rfl
    · rw [if_neg hsum, if_neg hsum]
      exact ih acc (fun c' h' => htodo c' (List.mem_cons_of_mem _ h')) hacc
        (fun c' h' => hdisj c' (List.mem_cons_of_mem _ h')) hnd.2

theorem forbiddenCombos_eq_filter (vs : List Verifier) :
    forbiddenCombos vs =
      (flagCombinations (vs.map Verifier.nPoss)).filter
        (combSummary (allAssigns vs) vs) := by
  unfold forbiddenCombos
  rw [foldl_forbidStep vs (flagCombinations (vs.map Verifier.nPoss)) []
    (fun c h => by
      have := (mem_flagCombinations _ c).mp h
      rw [this.1, List.length_map])
    (fun c2 h => absurd h (List.not_mem_nil c2))
    (fun c _ => List.not_mem_nil c)
    (flagCombinations_nodup _)]
  rfl

theorem guessNe_iff (x y : List Int) (hx : x.length = NUM_DIGITS)
    (hy : y.length = NUM_DIGITS) :
    ((List.range NUM_DIGITS).any (fun d => !(x.getD d 0 == y.getD d 0)) = true)
      ↔ x ≠ y := by
  rw [List.any_eq_true]
  constructor
  · rintro ⟨d, _, hne⟩ heq
    rw [heq] at hne
    simp at hne
  · intro hne
    obtain ⟨k, hk, hkne⟩ := ne_lists_exists_getD 0 x y (by omega) hne
    refine ⟨k, List.mem_range.mpr (by omega), ?_⟩
    simpa using hkne

theorem combSummary_iff (vs : List Verifier) (c : List Nat) :
    combSummary (allAssigns vs) vs c = true ↔
      (¬ ∃ a, baseSystem vs a = true ∧ combHolds c a = true) ∨
      (∃ a b : Assign, (baseSystem vs a = true ∧ combHolds c a = true) ∧
        (baseSystem vs b = true ∧ combHolds c b = true) ∧
        a.guess ≠ b.guess) := by
  have hmem : ∀ a : Assign, baseSystem vs a = true → a ∈ allAssigns vs := by
    intro a ha
    obtain ⟨hg, hsh, hr, _⟩ := baseSystem_parts vs a ha
    refine (mem_allAssigns vs a).mpr ⟨?_, hr⟩
    unfold Assign.wellShaped
    rw [Bool.and_eq_true, beq_iff_eq]
    exact ⟨hg, hsh⟩
  unfold combSummary
  cases hfind : (allAssigns vs).find?
      (fun a => baseSystem vs a && combHolds c a) with
  | none =>
    constructor
    · intro _
      left
      rintro ⟨a, hb, hcc⟩
      have := List.find?_eq_none.mp hfind a (hmem a hb)
      rw [hb, hcc] at this
      exact this rfl
    · intro _
      rfl
  | some a =>
    have hpa := List.find?_some hfind
    rw [Bool.and_eq_true] at hpa
    have hga : a.guess.length = NUM_DIGITS := (baseSystem_parts vs a hpa.1).1
    constructor
    · intro hany
      right
      rw [List.any_eq_true] at hany
      obtain ⟨b, _, hb⟩ := hany
      rw [Bool.and_eq_true, Bool.and_eq_true] at hb
      obtain ⟨⟨hbb, hbc⟩, hbne⟩ := hb
      have hgb : b.guess.length = NUM_DIGITS := (baseSystem_parts vs b hbb).1
      exact ⟨a, b, ⟨hpa.1, hpa.2⟩, ⟨hbb, hbc⟩,
        ((guessNe_iff b.guess a.guess hgb hga).mp hbne).symm⟩
    · intro hdecl
      rcases hdecl with hunsat | ⟨x, y, hx, hy, hxy⟩
      · exact absurd ⟨a, hpa.1, hpa.2⟩ hunsat
      · rw [List.any_eq_true]
        by_cases hxa : x.guess = a.guess
        · have hgy : y.guess.length = NUM_DIGITS := (baseSystem_parts vs y hy.1).1
          refine ⟨y, hmem y hy.1, ?_⟩
          rw [Bool.and_eq_true, Bool.and_eq_true]
          exact ⟨⟨hy.1, hy.2⟩, (guessNe_iff y.guess a.guess hgy hga).mpr
            (fun he => hxy (hxa.trans he.symm))⟩
        · have hgx : x.guess.length = NUM_DIGITS := (baseSystem_parts vs x hx.1).1
          refine ⟨x, hmem x hx.1, ?_⟩
          rw [Bool.and_eq_true, Bool.and_eq_true]
          exact ⟨⟨hx.1, hx.2⟩, (guessNe_iff x.guess a.guess hgx hga).mpr hxa⟩

/-- Claim C5: a combination is forbidden (its negation permanently asserted)
iff the base constraints with that combination pinned are unsatisfiable, or
satisfiable by two assignments with different codes; combinations pinning a
unique code are not forbidden.  Moreover every forbidden combination is
indeed falsified throughout the rest of the round. -/
theorem claim_C5 (vs : List Verifier) (c : List Nat)
    (hc : c ∈ flagCombinations (vs.map Verifier.nPoss)) :
    (c ∈ forbiddenCombos vs ↔
      (¬ ∃ a, baseSystem vs a = true ∧ combHolds c a = true) ∨
      (∃ a b : Assign, (baseSystem vs a = true ∧ combHolds c a = true) ∧
        (baseSystem vs b = true ∧ combHolds c b = true) ∧
        a.guess ≠ b.guess)) ∧
    (∀ elim a, c ∈ forbiddenCombos vs →
      roundSystemA vs (forbiddenCombos vs) elim a = true →
      combHolds c a = false) := by
  constructor
  · rw [forbiddenCombos_eq_filter, List.mem_filter, ← combSummary_iff vs c]
    simp [hc]
  · intro elim a hcf hsys
    unfold roundSystemA at hsys
    rw [Bool.and_eq_true, Bool.and_eq_true] at hsys
    have hall := hsys.1.2
    rw [List.all_eq_true] at hall
    have := hall c hcf
    simpa using this

/-! ## Claims C6, C7, C9: the rest of the round -/

theorem round_finish_inv (vs : List Verifier) (hist : List HistEntry)
    (forbidden : List (List Nat)) (elim : List (Nat × Nat)) (rd : RoundData)
    (h : round_finish vs hist forbidden elim = Except.ok rd) :
    rd = ⟨elim, roundCounts vs elim,
      decide (hist.length > 0) &&
        check vs (roundSystemB vs forbidden elim hist),
      (roundCounts vs elim).all (fun c => c == 1)⟩ ∧
    (if decide (hist.length > 0) &&
          check vs (roundSystemB vs forbidden elim hist) then
       check vs (roundSystemB vs forbidden elim hist)
     else check vs (roundSystemA vs forbidden elim)) = true := by
  unfold round_finish at h
  dsimp only at h
  by_cases hfin : (if decide (hist.length > 0) &&
        check vs (roundSystemB vs forbidden elim hist) then
      check vs (roundSystemB vs forbidden elim hist)
    else check vs (roundSystemA vs forbidden elim)) = true
  · rw [hfin] at h
    simp only [Bool.not_true] at h
    rw [if_neg (by simp)] at h
    injection h with h
    exact ⟨h.symm, hfin⟩
  · rw [Bool.eq_false_iff.mpr hfin] at h
    simp at h

theorem guess_loop_core_ok_filter (vs : List Verifier) (hist : List HistEntry)
    (forbidden : List (List Nat)) (rd : RoundData)
    (h : guess_loop_core vs hist forbidden = Except.ok rd) :
    ∃ elim, (if hist.length > 0 then filter_selected_flags vs hist
             else Except.ok []) = Except.ok elim ∧
      round_finish vs hist forbidden elim = Except.ok rd := by
  unfold guess_loop_core at h
  cases hfil : (if hist.length > 0 then filter_selected_flags vs hist
      else Except.ok ([] : List (Nat × Nat))) with
  | error e =>
    rw [hfil] at h
    cases h
  | ok elim =>
    rw [hfil] at h
    exact ⟨elim, rfl, h⟩

theorem foldl_dec_length :
    ∀ (elim : List (Nat × Nat)) (cs : List Int),
      (elim.foldl (fun cs p => cs.set p.1 (cs.getD p.1 0 - 1)) cs).length
        = cs.length := by
  intro elim
  induction elim with
  | nil =>
    intro cs
    rfl
  | cons p rest ih =>
    intro cs
    rw [List.foldl_cons, ih, List.length_set]

theorem foldl_dec_getD :
    ∀ (elim : List (Nat × Nat)) (cs : List Int) (i : Nat), i < cs.length →
      (∀ p ∈ elim, (p : Nat × Nat).1 < cs.length) →
      (elim.foldl (fun cs p => cs.set p.1 (cs.getD p.1 0 - 1)) cs).getD i 0
        = cs.getD i 0 - elim.countP (fun p => p.1 == i) := by
  intro elim
  induction elim with
  | nil =>
    intro cs i hi _
    simp
  | cons p rest ih =>
    intro cs i hi hb
    rw [List.foldl_cons, List.countP_cons]
    have hlen : (cs.set p.1 (cs.getD p.1 0 - 1)).length = cs.length :=
      List.length_set cs p.1 _
    rw [ih (cs.set p.1 (cs.getD p.1 0 - 1)) i (by omega)
      (fun q hq => by rw [hlen]; exact hb q (List.mem_cons_of_mem _ hq))]
    by_cases hpi : p.1 = i
    · rw [hpi]
      have hset : (cs.set i (cs.getD i 0 - 1)).getD i 0 = cs.getD i 0 - 1 := by
        rw [List.getD_eq_getElem _ _ (by rw [List.length_set]; exact hi)]
        rw [List.getElem_set_self]
      rw [hset]
      simp
      omega
    · have hset : (cs.set p.1 (cs.getD p.1 0 - 1)).getD i 0 = cs.getD i 0 := by
        rw [List.getD_eq_getElem _ _ (by rw [List.length_set]; exact hi),
          List.getElem_set_ne hpi, ← List.getD_eq_getElem _ _ hi]
      rw [hset]
      have hbeq : (p.1 == i) = false := by simp [hpi]
      rw [hbeq]
      simp

theorem all_iff_getD (l : List Int) (p : Int → Bool) :
    l.all p = true ↔ ∀ i, i < l.length → p (l.getD i 0) = true := by
  rw [List.all_eq_true]
  constructor
  · intro h i hi
    rw [List.getD_eq_getElem _ _ hi]
    exact h _ (List.getElem_mem hi)
  · intro h x hx
    obtain ⟨i, hi, rfl⟩ := List.mem_iff_getElem.mp hx
    rw [← List.getD_eq_getElem l 0 hi]
    exact h i hi

theorem filter_selected_flags_bounds (vs : List Verifier)
    (hist : List HistEntry) (l : List (Nat × Nat))
    (h : filter_selected_flags vs hist = Except.ok l) :
    ∀ p ∈ l, (p : Nat × Nat).1 < vs.length := by
  rintro ⟨i, j⟩ hp
  exact ((mem_filter_selected_flags vs hist l h i j).mp hp).1

/-- Claim C6: the solved flag returned by `guess_loop` is true iff every
verifier's interpretation-space count — its possibility count minus the
eliminations the Hypothesis Eliminator reported for it this round — equals
exactly 1. -/
theorem claim_C6 (vs : List Verifier) (hist : List HistEntry) (rd : RoundData)
    (h : guess_loop vs hist = Except.ok rd) :
    rd.solved = true ↔
      ∀ i (hi : i < vs.length),
        ((vs.get ⟨i, hi⟩).nPoss : Int)
          - rd.eliminated.countP (fun p => p.1 == i) = 1 := by
  unfold guess_loop at h
  obtain ⟨elim, hfil, hfin⟩ := guess_loop_core_ok_filter vs hist _ rd h
  obtain ⟨hrd, _⟩ := round_finish_inv vs hist _ elim rd hfin
  have hbounds : ∀ p ∈ elim, (p : Nat × Nat).1 < vs.length := by
    by_cases hl : hist.length > 0
    · rw [if_pos hl] at hfil
      exact filter_selected_flags_bounds vs hist elim hfil
    · rw [if_neg hl] at hfil
      injection hfil with hfil
      rw [← hfil]
      intro p hp
      cases hp
  subst hrd
  show (roundCounts vs elim).all (fun c => c == 1) = true ↔ _
  rw [all_iff_getD]
  have hlen : (roundCounts vs elim).length = vs.length := by
    unfold roundCounts
    rw [foldl_dec_length, List.length_map]
  have hval : ∀ i (hi : i < vs.length),
      (roundCounts vs elim).getD i 0 =
        ((vs.get ⟨i, hi⟩).nPoss : Int) - elim.countP (fun p => p.1 == i) := by
    intro i hi
    unfold roundCounts
    rw [foldl_dec_getD elim _ i (by rw [List.length_map]; omega)
      (fun q hq => by rw [List.length_map]; exact hbounds q hq)]
    have hinit : (vs.map (fun v => (v.nPoss : Int))).getD i 0
        = ((vs.get ⟨i, hi⟩).nPoss : Int) := by
      rw [List.getD_eq_getElem _ _ (by rw [List.length_map]; omega),
        List.getElem_map, List.get_eq_getElem]
    rw [hinit]
  constructor
  · intro hall i hi
    have := hall i (by omega)
    rw [hval i hi, beq_iff_eq] at this
    exact this
  · intro hall i hi
    rw [hlen] at hi
    rw [hval i hi, beq_iff_eq]
    exact hall i hi

theorem roundSystemA_shape (vs : List Verifier) (forbidden : List (List Nat))
    (elim : List (Nat × Nat)) (a : Assign)
    (h : roundSystemA vs forbidden elim a = true) :
    a.wellShaped vs = true ∧ digitRange a = true := by
  unfold roundSystemA at h
  rw [Bool.and_eq_true, Bool.and_eq_true] at h
  obtain ⟨⟨hb, _⟩, _⟩ := h
  obtain ⟨hg, hs, hr, _⟩ := baseSystem_parts vs a hb
  refine ⟨?_, hr⟩
  unfold Assign.wellShaped
  rw [Bool.and_eq_true, beq_iff_eq]
  exact ⟨hg, hs⟩

theorem roundSystemB_shape (vs : List Verifier) (forbidden : List (List Nat))
    (elim : List (Nat × Nat)) (hist : List HistEntry) (a : Assign)
    (h : roundSystemB vs forbidden elim hist a = true) :
    a.wellShaped vs = true ∧ digitRange a = true := by
  unfold roundSystemB at h
  rw [Bool.and_eq_true] at h
  exact roundSystemA_shape vs forbidden elim a h.1

/-- Claim C7: with non-empty history, once the eliminator has answered, the
repeat-avoidance constraints are kept exactly when the system stays
satisfiable with them; when they would make it unsatisfiable they are
silently dropped and the round is solved over the unextended system — and in
either case `guess_loop` returns without an error. -/
theorem claim_C7 (vs : List Verifier) (hist : List HistEntry)
    (elim : List (Nat × Nat)) (hne : hist ≠ [])
    (hfil : filter_selected_flags vs hist = Except.ok elim)
    (hsat : ∃ a, roundSystemA vs (forbiddenCombos vs) elim a = true) :
    ∃ rd, guess_loop vs hist = Except.ok rd ∧ rd.eliminated = elim ∧
      (rd.noRepeat = true ↔
        ∃ a, roundSystemB vs (forbiddenCombos vs) elim hist a = true) ∧
      (rd.noRepeat = false → ∀ a,
        rd.finalSystem vs hist a
          = roundSystemA vs (forbiddenCombos vs) elim a) := by
  have hlen : hist.length > 0 := List.length_pos.mpr hne
  have hd : decide (hist.length > 0) = true := by simp [hlen]
  have hBiff := check_iff_sat vs (roundSystemB vs (forbiddenCombos vs) elim hist)
    (fun a ha => roundSystemB_shape vs _ elim hist a ha)
  have hAiff := check_iff_sat vs (roundSystemA vs (forbiddenCombos vs) elim)
    (fun a ha => roundSystemA_shape vs _ elim a ha)
  have hcore : ∀ rdval,
      round_finish vs hist (forbiddenCombos vs) elim = Except.ok rdval →
      guess_loop vs hist = Except.ok rdval := by
    intro rdval hr
    unfold guess_loop guess_loop_core
    rw [if_pos hlen, hfil]
    exact hr
  by_cases hnr : check vs (roundSystemB vs (forbiddenCombos vs) elim hist) = true
  · have hfinish : round_finish vs hist (forbiddenCombos vs) elim = Except.ok
        ⟨elim, roundCounts vs elim, true,
         (roundCounts vs elim).all (fun c => c == 1)⟩ := by
      unfold round_finish
      rw [hd, hnr]
      simp
    refine ⟨_, hcore _ hfinish, rfl, ?_, ?_⟩
    · exact ⟨fun _ => hBiff.mp hnr, fun _ => rfl⟩
    · intro hfalse
      simp at hfalse
  · obtain ⟨a0, ha0⟩ := hsat
    have hA : check vs (roundSystemA vs (forbiddenCombos vs) elim) = true :=
      hAiff.mpr ⟨a0, ha0⟩
    have hfinish : round_finish vs hist (forbiddenCombos vs) elim = Except.ok
        ⟨elim, roundCounts vs elim, false,
         (roundCounts vs elim).all (fun c => c == 1)⟩ := by
      unfold round_finish
      rw [Bool.eq_false_iff.mpr hnr, hA]
      simp
    refine ⟨_, hcore _ hfinish, rfl, ?_, ?_⟩
    · constructor
      · intro htrue
        exact absurd htrue (by simp)
      · rintro ⟨a, ha⟩
        exact absurd (hBiff.mpr ⟨a, ha⟩) hnr
    · intro _ a
      rfl

/-- Once the base-class validation accepts a guess, every verifier kind's
`__call__` runs to completion. -/
theorem verifier_call_ok (g : List Int)
    (hg : Verifier.base_call g = Except.ok ()) :
    ∀ v : Verifier, ∃ b, v.call g = Except.ok b := by
  intro v
  cases v with
  | isEqualX p1 v1 =>
    refine ⟨decide (g.getD p1.toNat 0 = v1), ?_⟩
    show IsEqualX.call p1 v1 g = Except.ok (decide (g.getD p1.toNat 0 = v1))
    unfold IsEqualX.call
    rw [hg]
    rfl
  | duplicateDigits v1 v2 =>
    refine ⟨decide ((g.countP (fun x => decide (x = v1)) : Int) = v2), ?_⟩
    show DuplicateDigits.call v1 v2 g = Except.ok (decide ((g.countP (fun x => decide (x = v1)) : Int) = v2))
    unfold DuplicateDigits.call
    rw [hg]
    rfl
  | isLessThanX p1 v1 =>
    refine ⟨decide (g.getD p1.toNat 0 < v1), ?_⟩
    show IsLessThanX.call p1 v1 g = Except.ok (decide (g.getD p1.toNat 0 < v1))
    unfold IsLessThanX.call
    rw [hg]
    rfl
  | isEvenOdd p1 v1 =>
    refine ⟨decide (g.getD p1.toNat 0 % 2 = if v1 ≠ 0 then 0 else 1), ?_⟩
    show IsEvenOdd.call p1 v1 g = Except.ok (decide (g.getD p1.toNat 0 % 2 = if v1 ≠ 0 then 0 else 1))
    unfold IsEvenOdd.call
    rw [hg]
    rfl
  | isLessThan p1 p2 =>
    refine ⟨decide (g.getD p1.toNat 0 < g.getD p2.toNat 0), ?_⟩
    show IsLessThan.call p1 p2 g = Except.ok (decide (g.getD p1.toNat 0 < g.getD p2.toNat 0))
    unfold IsLessThan.call
    rw [hg]
    rfl
  | isMin p1 =>
    refine ⟨((List.range NUM_DIGITS).filter (fun d => Int.ofNat d != p1)).all
      (fun d => decide (g.getD p1.toNat 0 < g.getD d 0)), ?_⟩
    show IsMin.call p1 g = Except.ok (((List.range NUM_DIGITS).filter
      (fun d => Int.ofNat d != p1)).all
      (fun d => decide (g.getD p1.toNat 0 < g.getD d 0)))
    unfold IsMin.call
    rw [hg]
    rfl

/-- Claim C9: any code extracted from the system `guess_loop` finally solves
has exactly `NUM_DIGITS` digits, each in 1..5, and evaluating it with any
verifier's ground-truth `__call__` succeeds (no length or digit-range
validation error). -/
theorem claim_C9 (vs : List Verifier) (hist : List HistEntry) (rd : RoundData)
    (a : Assign) (h : guess_loop vs hist = Except.ok rd)
    (ha : rd.finalSystem vs hist a = true) :
    a.guess.length = NUM_DIGITS ∧ (∀ d ∈ a.guess, 1 ≤ d ∧ d ≤ 5) ∧
    (∀ v ∈ vs, ∃ b, v.call a.guess = Except.ok b) := by
  have hbase : baseSystem vs a = true := by
    unfold RoundData.finalSystem at ha
    by_cases hnr : rd.noRepeat = true
    · rw [if_pos hnr] at ha
      unfold roundSystemB roundSystemA at ha
      rw [Bool.and_eq_true, Bool.and_eq_true, Bool.and_eq_true] at ha
      exact ha.1.1.1
    · rw [if_neg hnr] at ha
      unfold roundSystemA at ha
      rw [Bool.and_eq_true, Bool.and_eq_true] at ha
      exact ha.1.1
  obtain ⟨hg, _, hr, _⟩ := baseSystem_parts vs a hbase
  have hrange : ∀ d ∈ a.guess, 1 ≤ d ∧ d ≤ 5 := by
    intro d hd
    unfold digitRange at hr
    rw [List.all_eq_true] at hr
    have := hr d hd
    rw [Bool.and_eq_true, decide_eq_true_eq, decide_eq_true_eq] at this
    exact this
  refine ⟨hg, hrange, ?_⟩
  have hany : ((List.range NUM_DIGITS).any
      (fun d => !decide (0 < a.guess.getD d 0 ∧ a.guess.getD d 0 < 6))) = false := by
    rw [Bool.eq_false_iff]
    intro hany
    rw [List.any_eq_true] at hany
    obtain ⟨d, hd, hdbad⟩ := hany
    rw [List.mem_range] at hd
    have hdl : d < a.guess.length := by omega
    have hmem : a.guess.getD d 0 ∈ a.guess := by
      rw [List.getD_eq_getElem _ _ hdl]
      exact List.getElem_mem hdl
    have hok := hrange _ hmem
    simp only [Bool.not_eq_true', decide_eq_false_iff_not] at hdbad
    exact hdbad ⟨by omega, by omega⟩
  have hval : Verifier.base_call a.guess = Except.ok () := by
    unfold Verifier.base_call
    rw [if_neg (by simp [hg]), if_neg (by simp only [hany]; simp)]
  exact fun v _ => verifier_call_ok a.guess hval v

/-! ## Concrete witnesses

A single `DuplicateDigits` verifier over digit 4 makes for a small concrete
round: of its four possibility combinations only `count = 3` pins a unique
code (4, 4, 4), so the other three are forbidden, and the round is forced to
re-derive that code. -/

set_option maxRecDepth 100000 in
/-- Witness for claim C4: one `IsEqualX(0, 2)` verifier, a history entry
recording that code (2, 3, 4) was rejected; possibility 0 (digit 0 equals 2)
is reported impossible. -/
theorem claim_C4_w :
    ((0, 0) ∈ [((0 : Nat), (0 : Nat))] ↔
      0 < [Verifier.isEqualX 0 2].length ∧
      0 < possCountAt [Verifier.isEqualX 0 2] 0 ∧
      ¬ ∃ sel, eliminatorBaseline [Verifier.isEqualX 0 2]
          [([2, 3, 4], [false])] sel = true ∧ selAt sel 0 0 = true) :=
  claim_C4 [Verifier.isEqualX 0 2] [([2, 3, 4], [false])] [(0, 0)] (by decide) 0 0

set_option maxRecDepth 100000 in
/-- Witness for claim C5 at the combination picking possibility 0 (no digit
equals 4) of a single `DuplicateDigits(4, _)` verifier. -/
theorem claim_C5_w :
    (([0] ∈ forbiddenCombos [Verifier.duplicateDigits 4 2] ↔
      (¬ ∃ a, baseSystem [Verifier.duplicateDigits 4 2] a = true ∧
        combHolds [0] a = true) ∨
      (∃ a b : Assign,
        (baseSystem [Verifier.duplicateDigits 4 2] a = true ∧
          combHolds [0] a = true) ∧
        (baseSystem [Verifier.duplicateDigits 4 2] b = true ∧
          combHolds [0] b = true) ∧
        a.guess ≠ b.guess)) ∧
    (∀ elim a, [0] ∈ forbiddenCombos [Verifier.duplicateDigits 4 2] →
      roundSystemA [Verifier.duplicateDigits 4 2]
        (forbiddenCombos [Verifier.duplicateDigits 4 2]) elim a = true →
      combHolds [0] a = false)) :=
  claim_C5 [Verifier.duplicateDigits 4 2] [0] (by decide)

set_option maxRecDepth 100000 in
set_option maxHeartbeats 2000000 in
/-- Witness for claim C6: the concrete round has one elimination-free
verifier with four remaining possibilities, so the round is not solved. -/
theorem claim_C6_w :
    ((⟨[], [4], false, false⟩ : RoundData).solved = true ↔
      ∀ i (hi : i < [Verifier.duplicateDigits 4 2].length),
        (([Verifier.duplicateDigits 4 2].get ⟨i, hi⟩).nPoss : Int)
          - (⟨[], [4], false, false⟩ : RoundData).eliminated.countP
              (fun p => p.1 == i) = 1) :=
  claim_C6 [Verifier.duplicateDigits 4 2] [([4, 4, 4], [true])]
    ⟨[], [4], false, false⟩ (by decide)

set_option maxRecDepth 100000 in
set_option maxHeartbeats 2000000 in
/-- Witness for claim C7: the only code consistent with the round is the
historical (4, 4, 4), so the repeat-avoidance constraints are dropped and
the round still returns without error. -/
theorem claim_C7_w :
    ∃ rd, guess_loop [Verifier.duplicateDigits 4 2] [([4, 4, 4], [true])]
        = Except.ok rd ∧
      rd.eliminated = [] ∧
      (rd.noRepeat = true ↔ ∃ a, roundSystemB [Verifier.duplicateDigits 4 2]
        (forbiddenCombos [Verifier.duplicateDigits 4 2]) []
        [([4, 4, 4], [true])] a = true) ∧
      (rd.noRepeat = false → ∀ a,
        rd.finalSystem [Verifier.duplicateDigits 4 2] [([4, 4, 4], [true])] a
          = roundSystemA [Verifier.duplicateDigits 4 2]
              (forbiddenCombos [Verifier.duplicateDigits 4 2]) [] a) :=
  claim_C7 [Verifier.duplicateDigits 4 2] [([4, 4, 4], [true])] []
    (by decide) (by decide) ⟨⟨[4, 4, 4], [[false, false, false, true]]⟩, by decide⟩

set_option maxRecDepth 100000 in
set_option maxHeartbeats 2000000 in
/-- Witness for claim C9 at the satisfying assignment of the concrete
round. -/
theorem claim_C9_w :
    (⟨[4, 4, 4], [[false, false, false, true]]⟩ : Assign).guess.length
        = NUM_DIGITS ∧
    (∀ d ∈ (⟨[4, 4, 4], [[false, false, false, true]]⟩ : Assign).guess,
      1 ≤ d ∧ d ≤ 5) ∧
    (∀ v ∈ [Verifier.duplicateDigits 4 2], ∃ b,
      v.call (⟨[4, 4, 4], [[false, false, false, true]]⟩ : Assign).guess
        = Except.ok b) :=
  claim_C9 [Verifier.duplicateDigits 4 2] [([4, 4, 4], [true])]
    ⟨[], [4], false, false⟩ ⟨[4, 4, 4], [[false, false, false, true]]⟩
    (by decide) (by decide)
